import Mathlib

/-
Verification of the CSP core of the crossword generator (generate.py).

The constraint graph (class Crossword / class Variable of crossword.py) is not
part of the sources; it is modelled from the specification.  Everything in
CrosswordCreator (generate.py) is translated function by function.  Python
dictionaries become total functions (domains) or association lists
(assignments); the recursive search and the AC-3 worklist loop take an explicit
fuel argument that bounds the number of steps and is chosen large enough that
it is never exhausted on any run the source can perform.
-/

namespace CrosswordGen

/-- Modelled from the spec: orientation of a slot (crossword.py, not in src). -/
inductive Direction where
  | across
  | down
deriving DecidableEq

/-- Modelled from the spec: a fillable slot with row, column, orientation and
length; equality is value based on all four attributes (crossword.py, not in
src). -/
structure Variable where
  i : Nat
  j : Nat
  direction : Direction
  length : Nat
deriving DecidableEq

/-- A vocabulary word, as the list of its characters. -/
abbrev Word := List Char

/-- Modelled from the spec: the constraint graph the solver consumes: the set
of variables, the vocabulary, and the overlap lookup for ordered pairs of
variables (crossword.py, not in src). -/
structure Crossword where
  vars : List Variable
  words : List Word
  overlaps : Variable → Variable → Option (Nat × Nat)

/-- Modelled from the spec: y is a neighbor of x iff an overlap exists between
them and x is not y (crossword.py, not in src). -/
def neighbors (cw : Crossword) (x : Variable) : List Variable :=
  cw.vars.filter (fun v => (v != x) && (cw.overlaps v x).isSome)

/-- The per-variable domains.  The Python dict self.domains has exactly the
variables of the crossword as keys and is only ever read at those keys, so it
is modelled as a total function. -/
abbrev Domains := Variable → List Word

/-- CrosswordCreator.__init__ (generate.py lines 8 to 16): every variable gets
an independent copy of the full vocabulary. -/
def initialDomains (cw : Crossword) : Domains := fun _ => cw.words

/-- Character of a word at an index, Python w[i].  The call sites only index at
offsets of genuine overlaps, which lie inside the word; out of range access
would raise in Python and returns a space here as a formal default. -/
def charAt (w : Word) (i : Nat) : Char := w.getD i ' '

/-- enforce_node_consistency (generate.py lines 96 to 105): keep in each domain
exactly the words whose length equals the length of the variable. -/
def enforceNodeConsistency (dom : Domains) : Domains :=
  fun var => (dom var).filter (fun word => word.length == var.length)

/-- revise (generate.py lines 107 to 139).  The double loop with a break keeps
an x word as soon as one y word matches at the overlap, which is exactly a
filter by an existential over the y domain.  The flag is the comparison of the
kept length with the original length, as in the source. -/
def revise (cw : Crossword) (dom : Domains) (x y : Variable) : Bool × Domains :=
  match cw.overlaps x y with
  | some (i1, i2) =>
    let num := (dom x).length
    let keep := (dom x).filter (fun xw => (dom y).any (fun yw => charAt xw i1 == charAt yw i2))
    (keep.length != num, fun v => if v == x then keep else dom v)
  | none => (false, dom)

/-- Total number of candidate words over all variables; used only to size the
fuel of the AC-3 loop. -/
def totalSize (cw : Crossword) (dom : Domains) : Nat :=
  (cw.vars.map (fun v => (dom v).length)).sum

/-- The default worklist of ac3 (generate.py lines 151 to 158): every arc
(v1, v2) with v2 a neighbor of v1. -/
def initialArcs (cw : Crossword) : List (Variable × Variable) :=
  cw.vars.flatMap (fun v1 => (neighbors cw v1).map (fun v2 => (v1, v2)))

/-- The while loop of ac3 (generate.py lines 159 to 171).  arcs.pop() removes
the last element; re-enqueued arcs are appended at the end.  The fuel counts
loop iterations; every iteration pops one arc, and arcs are only added when a
revision strictly shrank a domain, so the number of iterations is bounded and
the fuel supplied by ac3 below is never exhausted (the fuel zero branch mirrors
the successful loop exit). -/
def ac3go (cw : Crossword) : Nat → List (Variable × Variable) → Domains → Bool × Domains
  | 0, _, dom => (true, dom)
  | fuel + 1, arcs, dom =>
    match arcs.getLast? with
    | none => (true, dom)
    | some (x, y) =>
      match revise cw dom x y with
      | (true, dom2) =>
        if (dom2 x).length = 0 then (false, dom2)
        else
          ac3go cw fuel
            (arcs.dropLast ++ ((neighbors cw x).filter (fun z => z != y)).map (fun z => (z, x)))
            dom2
      | (false, dom2) => ac3go cw fuel arcs.dropLast dom2

/-- ac3 (generate.py lines 141 to 171): run the worklist loop starting from the
given arcs, or from every neighbor arc when none are given.  Each iteration
pops one arc; at most totalSize revisions shrink a domain and each enqueues
fewer than one arc per variable, so the chosen fuel strictly exceeds the number
of iterations any run can take. -/
def ac3 (cw : Crossword) (arcs : Option (List (Variable × Variable))) (dom : Domains) :
    Bool × Domains :=
  let start := arcs.getD (initialArcs cw)
  ac3go cw (start.length + totalSize cw dom * cw.vars.length + 1) start dom

/-- A partial assignment, the Python dict mapping variables to words.  The dict
is only extended at fresh keys and the tentative binding is deleted again, so
an association list in insertion order is a faithful model. -/
abbrev Assignment := List (Variable × Word)

/-- Python: var in assignment. -/
def containsKey (a : Assignment) (x : Variable) : Bool :=
  a.any (fun p => p.1 == x)

/-- Python: assignment[var] (as an Option). -/
def lookupA (a : Assignment) (x : Variable) : Option Word :=
  (a.find? (fun p => p.1 == x)).map (fun p => p.2)

/-- Python: assignment[var] = word (replace if present, else append). -/
def insertA (a : Assignment) (x : Variable) (w : Word) : Assignment :=
  if containsKey a x then a.map (fun p => if p.1 == x then (x, w) else p)
  else a ++ [(x, w)]

/-- Python: del assignment[var]. -/
def eraseA (a : Assignment) (x : Variable) : Assignment :=
  a.filter (fun p => p.1 != x)

/-- assignment_complete (generate.py lines 173 to 184): every variable of the
crossword is a key of the assignment. -/
def assignmentComplete (cw : Crossword) (a : Assignment) : Bool :=
  cw.vars.all (fun v => containsKey a v)

/-- consistent (generate.py lines 186 to 209): every bound word has the length
of its variable, distinct variables carry distinct words, and overlapping
bound pairs agree at the overlap offsets. -/
def consistent (cw : Crossword) (a : Assignment) : Bool :=
  a.all (fun p1 =>
    (p1.2.length == p1.1.length) &&
    a.all (fun p2 =>
      if p1.1 == p2.1 then true
      else
        (p1.2 != p2.2) &&
        (match cw.overlaps p1.1 p2.1 with
         | none => true
         | some (i1, i2) => charAt p1.2 i1 == charAt p2.2 i2)))

/-- Merge two key sorted lists, taking from the left on ties (stable).  The
fuel is the sum of the lengths, so the fuel zero branch is never reached. -/
def mergeTwo {α : Type} : Nat → List (Int × α) → List (Int × α) → List (Int × α)
  | 0, xs, ys => xs ++ ys
  | _ + 1, [], ys => ys
  | _ + 1, x :: xs, [] => x :: xs
  | fuel + 1, x :: xs, y :: ys =>
    if x.1 ≤ y.1 then x :: mergeTwo fuel xs (y :: ys)
    else y :: mergeTwo fuel (x :: xs) ys

/-- One round of a bottom up merge sort: merge adjacent runs pairwise. -/
def mergePairs {α : Type} : List (List (Int × α)) → List (List (Int × α))
  | [] => []
  | [l] => [l]
  | a :: b :: rest => mergeTwo (a.length + b.length) a b :: mergePairs rest

/-- Repeat merge rounds until one run remains.  The fuel (the number of initial
runs) exceeds the number of rounds needed. -/
def mergeLists {α : Type} : Nat → List (List (Int × α)) → List (Int × α)
  | 0, ls => ls.flatten
  | _ + 1, [] => []
  | _ + 1, [l] => l
  | fuel + 1, a :: b :: rest => mergeLists fuel (mergePairs (a :: b :: rest))

/-- Python sorted / list.sort with a key function: stable, ascending by key,
and the key is computed once per element.  Any stable ascending by key sort
produces the same list, so a bottom up merge sort models it faithfully. -/
def sortByKey {α : Type} (key : α → Int) (l : List α) : List α :=
  (mergeLists l.length (l.map (fun x => [(key x, x)]))).map (fun p => p.2)

/-- count_removed_in_neighbors (generate.py lines 221 to 231): for each listed
neighbor, count its domain words that equal the candidate word or disagree
with it at the overlap offsets.  The call site only passes genuine neighbors,
for which the overlap exists; on a missing overlap Python would raise, and the
count zero here is a formal default for that unreachable case. -/
def countRemovedInNeighbors (cw : Crossword) (dom : Domains) (var : Variable) (word : Word)
    (nbrs : List Variable) : Nat :=
  (nbrs.map (fun neighbor =>
    match cw.overlaps var neighbor with
    | none => 0
    | some (i1, i2) =>
      ((dom neighbor).filter (fun w => (word == w) || (charAt word i1 != charAt w i2))).length)).sum

/-- order_domain_values (generate.py lines 211 to 219): the domain of the
variable, stably sorted ascending by the number of values a choice would rule
out among unassigned neighbors. -/
def orderDomainValues (cw : Crossword) (dom : Domains) (var : Variable) (a : Assignment) :
    List Word :=
  let nbrs := (neighbors cw var).filter (fun n => !containsKey a n)
  sortByKey (fun word => (countRemovedInNeighbors cw dom var word nbrs : Int)) (dom var)

/-- The sort key of select_unassigned_variable (generate.py line 244):
len(self.domains[v]) - len(self.crossword.neighbors(v)) * 0.001.  Scaled by
1000 this is the exact integer 1000 * domain size - neighbor count, which
induces the same ascending order as the float expression (for neighbor counts
below 2 to the 40th the float products stay distinct and ordered). -/
def selectKey (cw : Crossword) (dom : Domains) (v : Variable) : Int :=
  1000 * ((dom v).length : Int) - ((neighbors cw v).length : Int)

/-- select_unassigned_variable (generate.py lines 233 to 245): sort the
unassigned variables by the blended key and return the first.  Python indexes
unassigned[0], which raises on an empty list; that happens only on a complete
assignment, which backtrack filters out first, and is none here. -/
def selectUnassignedVariable (cw : Crossword) (dom : Domains) (a : Assignment) :
    Option Variable :=
  let unassigned := cw.vars.filter (fun v => !containsKey a v)
  (sortByKey (selectKey cw dom) unassigned).head?

/-- The body of the value loop of backtrack (generate.py lines 262 to 277), one
iteration: once a result is found it is propagated unchanged (the early
return); otherwise bind the candidate, check consistency, recurse through bt,
and on any failing path delete the tentative binding again. -/
def btStep (cw : Crossword) (var : Variable)
    (bt : Assignment → Option Assignment × Assignment)
    (acc : Option Assignment × Assignment) (value : Word) : Option Assignment × Assignment :=
  match acc with
  | (some result, s) => (some result, s)
  | (none, s) =>
    let s1 := insertA s var value
    if consistent cw s1 then
      match bt s1 with
      | (some result, s2) => (some result, s2)
      | (none, s2) => (none, eraseA s2 var)
    else (none, eraseA s1 var)

/-- backtrack (generate.py lines 247 to 278).  The second component threads the
state of the mutable assignment dict through the call.  The fuel bounds the
recursion depth, which Python bounds by the number of unassigned variables, so
the fuel used by solve is never exhausted. -/
def backtrack (cw : Crossword) (dom : Domains) : Nat → Assignment → Option Assignment × Assignment
  | 0, a => (none, a)
  | fuel + 1, a =>
    if assignmentComplete cw a then (some a, a)
    else
      match selectUnassignedVariable cw dom a with
      | none => (none, a)
      | some var =>
        (orderDomainValues cw dom var a).foldl
          (btStep cw var (fun s => backtrack cw dom fuel s)) (none, a)

/-- solve (generate.py lines 88 to 94): enforce node consistency, run ac3, and
call backtrack on the empty assignment.  The source discards the Boolean
returned by ac3 (line 93) and invokes backtrack unconditionally; only the
domains pruned by ac3 are carried over. -/
def solve (cw : Crossword) : Option Assignment :=
  let dom1 := enforceNodeConsistency (initialDomains cw)
  let dom2 := (ac3 cw none dom1).2
  (backtrack cw dom2 (cw.vars.length + 1) []).1

/-- solve with an execution trace: the Boolean records whether control reached
the backtrack call.  The body of solve (lines 92 to 94) is straight line code
with no branch on the ac3 result, so the flag is true on every input. -/
def solveTrace (cw : Crossword) : Option Assignment × Bool :=
  let dom1 := enforceNodeConsistency (initialDomains cw)
  let dom2 := (ac3 cw none dom1).2
  ((backtrack cw dom2 (cw.vars.length + 1) []).1, true)

/-- Overlap agreement of a total assignment at an ordered pair, as a Boolean:
if the pair overlaps, the chosen words agree at the overlap offsets. -/
def overlapOk (cw : Crossword) (t : Variable → Word) (u v : Variable) : Bool :=
  match cw.overlaps u v with
  | none => true
  | some (i1, i2) => charAt (t u) i1 == charAt (t v) i2

/-- Number of crossword variables not yet bound by the assignment. -/
def unassignedCount (cw : Crossword) (a : Assignment) : Nat :=
  (cw.vars.filter (fun v => !containsKey a v)).length

/-- Well formedness of a worklist: both endpoints of every arc are variables of
the crossword and the endpoints differ.  Every worklist the source builds has
this shape (neighbor lists exclude the variable itself). -/
def arcsOK (cw : Crossword) (arcs : List (Variable × Variable)) : Prop :=
  ∀ p ∈ arcs, p.1 ∈ cw.vars ∧ p.2 ∈ cw.vars ∧ p.1 ≠ p.2

/-! Concrete instances used to exercise the theorems below. -/

/-- Scenario A slot: across, length 3, starting at the shared corner cell. -/
def aV1 : Variable := ⟨0, 0, Direction.across, 3⟩

/-- Scenario A slot: down, length 3, starting at the shared corner cell. -/
def aV2 : Variable := ⟨0, 0, Direction.down, 3⟩

def wCAT : Word := ['C', 'A', 'T']

def wCOW : Word := ['C', 'O', 'W']

def wDOG : Word := ['D', 'O', 'G']

/-- Two slots of length three crossing at their first letters, with the
vocabulary CAT, COW, DOG (Scenario A of the spec). -/
def cwA : Crossword :=
  ⟨[aV1, aV2], [wCAT, wCOW, wDOG],
   fun a b => if ((a == aV1) && (b == aV2)) || ((a == aV2) && (b == aV1)) then some (0, 0)
     else none⟩

/-- A slot of length one. -/
def bV1 : Variable := ⟨0, 0, Direction.across, 1⟩

/-- A slot of length two crossing the previous one. -/
def bV2 : Variable := ⟨0, 0, Direction.down, 2⟩

/-- An infeasible instance: the single length one word must match the second
letter of the single length two word, but A differs from C, so arc consistency
empties a domain. -/
def cwB : Crossword :=
  ⟨[bV1, bV2], [['A'], ['B', 'C']],
   fun a b => if (a == bV1) && (b == bV2) then some (0, 1)
     else if (a == bV2) && (b == bV1) then some (1, 0)
     else none⟩

/-- Slot of length one, across. -/
def tV1 : Variable := ⟨0, 0, Direction.across, 1⟩

/-- Slot of length one, down, crossing the previous one at the single cell. -/
def tV2 : Variable := ⟨0, 0, Direction.down, 1⟩

/-- Two crossing slots of length one with an empty vocabulary. -/
def cwT : Crossword :=
  ⟨[tV1, tV2], [],
   fun a b => if ((a == tV1) && (b == tV2)) || ((a == tV2) && (b == tV1)) then some (0, 0)
     else none⟩

/-- Two crossing slots of length one over the vocabulary A, B: the overlap
forces equal words while distinctness forbids them, so search must fail. -/
def cwU : Crossword :=
  ⟨[tV1, tV2], [['A'], ['B']],
   fun a b => if ((a == tV1) && (b == tV2)) || ((a == tV2) && (b == tV1)) then some (0, 0)
     else none⟩

/-- The hub variable of the high degree instance: length two. -/
def hubV : Variable := ⟨0, 0, Direction.down, 2⟩

/-- Spoke number j of the high degree instance: length one. -/
def mkSpoke (j : Nat) : Variable := ⟨1, j, Direction.across, 1⟩

/-- The 1002 spokes. -/
def spokeList : List Variable := (List.range 1002).map mkSpoke

/-- A hub with 1002 spokes.  Exactly the pairs of different lengths overlap, so
the hub neighbors every spoke and each spoke neighbors only the hub. -/
def cwH : Crossword :=
  ⟨hubV :: spokeList, [],
   fun a b => if a.length == b.length then none else some (0, 0)⟩

/-- Domains for the high degree instance: two candidates for the hub, one for
every spoke. -/
def domH : Domains :=
  fun v => if v.length == 2 then [['A'], ['B']] else [['C']]

/-- The total assignment CAT across, COW down, a witness solution for the
Scenario A instance. -/
def tA : Variable → Word := fun v => if v == aV1 then wCAT else wCOW

/-- The assignment list solve produces on the Scenario A instance. -/
def rA : Assignment := [(aV1, wCAT), (aV2, wCOW)]

/-- Ordering of keyed pairs by their key. -/
def keyLE {α : Type} (p q : Int × α) : Prop := p.1 ≤ q.1

/-! Lemmas about the stable merge sort. -/

theorem mem_mergeTwo {α : Type} (z : Int × α) :
    ∀ (f : Nat) (xs ys : List (Int × α)), z ∈ mergeTwo f xs ys ↔ z ∈ xs ∨ z ∈ ys := by
  intro f
  induction f with
  | zero => intro xs ys; simp [mergeTwo]
  | succ f ih =>
    intro xs ys
    match xs, ys with
    | [], ys => simp [mergeTwo]
    | x :: xs, [] => simp [mergeTwo]
    | x :: xs, y :: ys =>
      simp only [mergeTwo]
      split
      · simp only [List.mem_cons, ih]
        tauto
      · simp only [List.mem_cons, ih]
        tauto

theorem mem_flatten_mergePairs {α : Type} (z : Int × α) :
    ∀ ls : List (List (Int × α)), z ∈ (mergePairs ls).flatten ↔ z ∈ ls.flatten := by
  intro ls
  induction ls using mergePairs.induct with
  | case1 => simp [mergePairs]
  | case2 l => simp [mergePairs]
  | case3 a b rest ih =>
    simp only [mergePairs, List.flatten_cons, List.mem_append, mem_mergeTwo, ih]
    tauto

theorem mem_mergeLists {α : Type} (z : Int × α) :
    ∀ (f : Nat) (ls : List (List (Int × α))), z ∈ mergeLists f ls ↔ z ∈ ls.flatten := by
  intro f
  induction f with
  | zero => intro ls; simp [mergeLists]
  | succ f ih =>
    intro ls
    match ls with
    | [] => simp [mergeLists]
    | [l] => simp [mergeLists]
    | a :: b :: rest =>
      show z ∈ mergeLists f (mergePairs (a :: b :: rest)) ↔ _
      rw [ih, mem_flatten_mergePairs]

theorem pairwise_mergeTwo {α : Type} :
    ∀ (f : Nat) (xs ys : List (Int × α)), xs.length + ys.length ≤ f →
      xs.Pairwise keyLE → ys.Pairwise keyLE → (mergeTwo f xs ys).Pairwise keyLE := by
  intro f
  induction f with
  | zero =>
    intro xs ys hlen _ _
    have hx : xs = [] := List.length_eq_zero.mp (by omega)
    have hy : ys = [] := List.length_eq_zero.mp (by omega)
    subst hx; subst hy
    simp [mergeTwo]
  | succ f ih =>
    intro xs ys hlen hxs hys
    match xs, ys with
    | [], ys => simpa [mergeTwo] using hys
    | x :: xs, [] => simpa [mergeTwo] using hxs
    | x :: xs, y :: ys =>
      simp only [mergeTwo]
      rw [List.pairwise_cons] at hxs hys
      split
      · rename_i hxy
        rw [List.pairwise_cons]
        constructor
        · intro z hz
          rw [mem_mergeTwo] at hz
          rcases hz with hz | hz
          · exact hxs.1 z hz
          · rcases List.mem_cons.mp hz with rfl | hz
            · exact hxy
            · exact le_trans hxy (hys.1 z hz)
        · refine ih xs (y :: ys) ?_ hxs.2 (List.pairwise_cons.mpr hys)
          simp only [List.length_cons] at hlen ⊢
          omega
      · rename_i hxy
        have hyx : keyLE y x := le_of_lt (lt_of_not_ge hxy)
        rw [List.pairwise_cons]
        constructor
        · intro z hz
          rw [mem_mergeTwo] at hz
          rcases hz with hz | hz
          · rcases List.mem_cons.mp hz with rfl | hz
            · exact hyx
            · exact le_trans hyx (hxs.1 z hz)
          · exact hys.1 z hz
        · refine ih (x :: xs) ys ?_ (List.pairwise_cons.mpr hxs) hys.2
          simp only [List.length_cons] at hlen ⊢
          omega

theorem pairwise_mergePairs {α : Type} :
    ∀ ls : List (List (Int × α)), (∀ l ∈ ls, l.Pairwise keyLE) →
      ∀ l ∈ mergePairs ls, l.Pairwise keyLE := by
  intro ls
  induction ls using mergePairs.induct with
  | case1 => simp [mergePairs]
  | case2 l => simp [mergePairs]
  | case3 a b rest ih =>
    intro hall l hl
    simp only [mergePairs, List.mem_cons] at hl
    rcases hl with rfl | hl
    · exact pairwise_mergeTwo _ a b le_rfl (hall a (by simp)) (hall b (by simp))
    · exact ih (fun m hm => hall m (by simp [hm])) l hl

theorem length_mergePairs_le {α : Type} :
    ∀ ls : List (List (Int × α)), (mergePairs ls).length ≤ ls.length := by
  intro ls
  induction ls using mergePairs.induct with
  | case1 => simp [mergePairs]
  | case2 l => simp [mergePairs]
  | case3 a b rest ih =>
    simp only [mergePairs, List.length_cons]
    omega

theorem pairwise_mergeLists {α : Type} :
    ∀ (f : Nat) (ls : List (List (Int × α))), ls.length ≤ f →
      (∀ l ∈ ls, l.Pairwise keyLE) → (mergeLists f ls).Pairwise keyLE := by
  intro f
  induction f with
  | zero =>
    intro ls hlen _
    have : ls = [] := List.length_eq_zero.mp (by omega)
    subst this
    simp [mergeLists]
  | succ f ih =>
    intro ls hlen hall
    match ls with
    | [] => simp [mergeLists]
    | [l] => simpa [mergeLists] using hall l (by simp)
    | a :: b :: rest =>
      show (mergeLists f (mergePairs (a :: b :: rest))).Pairwise keyLE
      refine ih _ ?_ (pairwise_mergePairs _ hall)
      have h1 := length_mergePairs_le rest
      simp only [mergePairs, List.length_cons] at hlen ⊢
      omega

theorem flatten_map_singleton {α β : Type} (f : α → β) :
    ∀ l : List α, (l.map (fun x => [f x])).flatten = l.map f := by
  intro l
  induction l with
  | nil => simp
  | cons c l ih => simp [ih]

theorem mem_sortByKey {α : Type} (key : α → Int) (l : List α) (x : α) :
    x ∈ sortByKey key l ↔ x ∈ l := by
  unfold sortByKey
  simp only [List.mem_map]
  constructor
  · rintro ⟨p, hp, rfl⟩
    rw [mem_mergeLists, flatten_map_singleton] at hp
    rcases List.mem_map.mp hp with ⟨c, hc, rfl⟩
    exact hc
  · intro hx
    refine ⟨(key x, x), ?_, rfl⟩
    rw [mem_mergeLists, flatten_map_singleton]
    exact List.mem_map_of_mem _ hx

theorem sortByKey_head_min {α : Type} (key : α → Int) (l : List α) (x : α)
    (h : (sortByKey key l).head? = some x) : x ∈ l ∧ ∀ u ∈ l, key x ≤ key u := by
  unfold sortByKey at h
  rw [List.head?_map] at h
  rcases Option.map_eq_some'.mp h with ⟨p, hp, rfl⟩
  have hpair : (mergeLists (l.length) (l.map (fun c => [(key c, c)]))).Pairwise keyLE := by
    refine pairwise_mergeLists _ _ (by simp) ?_
    intro m hm
    rcases List.mem_map.mp hm with ⟨c, _, rfl⟩
    simp
  obtain ⟨t, ht⟩ : ∃ t, mergeLists (l.length) (l.map (fun c => [(key c, c)])) = p :: t := by
    cases hM : mergeLists (l.length) (l.map (fun c => [(key c, c)])) with
    | nil => rw [hM] at hp; simp at hp
    | cons q t =>
      rw [hM] at hp
      simp only [List.head?_cons, Option.some.injEq] at hp
      exact ⟨t, by rw [hp]⟩
  have hpmem : p ∈ mergeLists (l.length) (l.map (fun c => [(key c, c)])) := by
    rw [ht]; simp
  have hpl : p ∈ l.map (fun c => (key c, c)) := by
    rw [mem_mergeLists, flatten_map_singleton] at hpmem
    exact hpmem
  rcases List.mem_map.mp hpl with ⟨c, hc, hpc⟩
  subst hpc
  constructor
  · exact hc
  · intro u hu
    have humem : (key u, u) ∈ mergeLists (l.length) (l.map (fun c => [(key c, c)])) := by
      rw [mem_mergeLists, flatten_map_singleton]
      exact List.mem_map_of_mem _ hu
    rw [ht] at humem
    rcases List.mem_cons.mp humem with heq | humem
    · have h1 : key c = key u := congrArg Prod.fst heq.symm
      exact le_of_eq h1
    · exact (List.pairwise_cons.mp (ht ▸ hpair)).1 (key u, u) humem

theorem sortByKey_head_some {α : Type} (key : α → Int) (l : List α) (c : α) (hc : c ∈ l) :
    ∃ x, (sortByKey key l).head? = some x := by
  cases h : sortByKey key l with
  | nil =>
    have : c ∈ sortByKey key l := (mem_sortByKey key l c).mpr hc
    rw [h] at this
    simp at this
  | cons x t => exact ⟨x, rfl⟩

/-! Lemmas about assignments as association lists. -/

theorem containsKey_eq_false_iff (a : Assignment) (x : Variable) :
    containsKey a x = false ↔ ∀ p ∈ a, p.1 ≠ x := by
  simp [containsKey]

theorem mem_of_lookupA (a : Assignment) (x : Variable) (w : Word)
    (h : lookupA a x = some w) : (x, w) ∈ a := by
  unfold lookupA at h
  rcases Option.map_eq_some'.mp h with ⟨p, hp, hw⟩
  have hmem := List.mem_of_find?_eq_some hp
  have hpx : p.1 = x := by
    have := List.find?_some hp
    exact beq_iff_eq.mp this
  have : p = (x, w) := by
    cases p
    simp only at hpx hw
    rw [hpx, hw]
  rw [← this]
  exact hmem

theorem containsKey_iff_lookupA (a : Assignment) (x : Variable) :
    containsKey a x = true ↔ ∃ w, lookupA a x = some w := by
  constructor
  · intro h
    rcases List.any_eq_true.mp h with ⟨p, hp, hpx⟩
    have hs : (a.find? (fun p => p.1 == x)).isSome := List.find?_isSome.mpr ⟨p, hp, hpx⟩
    rcases Option.isSome_iff_exists.mp hs with ⟨q, hq⟩
    exact ⟨q.2, by simp [lookupA, hq]⟩
  · rintro ⟨w, hw⟩
    have := mem_of_lookupA a x w hw
    exact List.any_eq_true.mpr ⟨(x, w), this, by simp⟩

theorem insertA_not_contains (a : Assignment) (x : Variable) (w : Word)
    (h : containsKey a x = false) : insertA a x w = a ++ [(x, w)] := by
  simp [insertA, h]

theorem eraseA_insertA (a : Assignment) (x : Variable) (w : Word)
    (h : containsKey a x = false) : eraseA (insertA a x w) x = a := by
  rw [insertA_not_contains a x w h]
  unfold eraseA
  rw [List.filter_append]
  have h1 : a.filter (fun p => p.1 != x) = a := by
    rw [List.filter_eq_self]
    intro p hp
    simpa using (containsKey_eq_false_iff a x).mp h p hp
  have h2 : List.filter (fun p => p.1 != x) [(x, w)] = [] := by simp
  rw [h1, h2, List.append_nil]

theorem containsKey_insertA_self (a : Assignment) (x : Variable) (w : Word)
    (h : containsKey a x = false) : containsKey (insertA a x w) x = true := by
  rw [insertA_not_contains a x w h]
  unfold containsKey
  rw [List.any_append]
  simp

theorem containsKey_insertA_other (a : Assignment) (x u : Variable) (w : Word)
    (h : containsKey a x = false) (hne : x ≠ u) :
    containsKey (insertA a x w) u = containsKey a u := by
  rw [insertA_not_contains a x w h]
  unfold containsKey
  rw [List.any_append]
  simp [hne]

theorem mem_insertA (a : Assignment) (x : Variable) (w : Word) (p : Variable × Word)
    (h : containsKey a x = false) : p ∈ insertA a x w ↔ p ∈ a ∨ p = (x, w) := by
  rw [insertA_not_contains a x w h]
  simp

theorem incomplete_exists (cw : Crossword) (a : Assignment)
    (h : assignmentComplete cw a = false) : ∃ v ∈ cw.vars, containsKey a v = false := by
  by_contra hc
  push_neg at hc
  have : assignmentComplete cw a = true := by
    apply List.all_eq_true.mpr
    intro v hv
    have := hc v hv
    simpa using this
  rw [this] at h
  cases h

theorem complete_contains (cw : Crossword) (a : Assignment)
    (h : assignmentComplete cw a = true) : ∀ v ∈ cw.vars, containsKey a v = true := by
  intro v hv
  exact List.all_eq_true.mp h v hv

theorem filter_ne_length_lt {α : Type} [DecidableEq α] (l : List α) (b : α) (hb : b ∈ l) :
    (l.filter (fun x => x != b)).length < l.length := by
  induction l with
  | nil => cases hb
  | cons c l ih =>
    by_cases hcb : c = b
    · subst hcb
      simp only [List.filter_cons, bne_self_eq_false, List.length_cons]
      have := List.length_filter_le (fun x => x != c) l
      simp only [Bool.false_eq_true, if_false]
      omega
    · rcases List.mem_cons.mp hb with rfl | hb2
      · exact absurd rfl hcb
      · have := ih hb2
        simp only [List.filter_cons, List.length_cons]
        have hcb2 : (c != b) = true := by simpa using hcb
        rw [hcb2]
        simp only [if_true, List.length_cons]
        omega

theorem unassignedCount_insertA_lt (cw : Crossword) (a : Assignment) (var : Variable) (w : Word)
    (hvar : var ∈ cw.vars) (hfree : containsKey a var = false) :
    unassignedCount cw (insertA a var w) < unassignedCount cw a := by
  unfold unassignedCount
  have hcong : cw.vars.filter (fun v => !containsKey (insertA a var w) v) =
      (cw.vars.filter (fun v => !containsKey a v)).filter (fun v => v != var) := by
    rw [List.filter_filter]
    apply List.filter_congr
    intro v _
    by_cases hv : v = var
    · subst hv
      rw [containsKey_insertA_self a v w hfree]
      simp
    · rw [containsKey_insertA_other a var v w hfree (fun h => hv h.symm)]
      by_cases hcv : containsKey a v
      · simp [hcv]
      · simp only [Bool.not_eq_true] at hcv
        simp [hcv, hv]
  rw [hcong]
  apply filter_ne_length_lt
  rw [List.mem_filter]
  refine ⟨hvar, ?_⟩
  rw [hfree]
  rfl

/-! Lemmas about variable selection. -/

theorem select_spec (cw : Crossword) (dom : Domains) (a : Assignment) (var : Variable)
    (h : selectUnassignedVariable cw dom a = some var) :
    var ∈ cw.vars ∧ containsKey a var = false ∧
      ∀ u ∈ cw.vars, containsKey a u = false →
        selectKey cw dom var ≤ selectKey cw dom u := by
  unfold selectUnassignedVariable at h
  have hmin := sortByKey_head_min (selectKey cw dom) _ var h
  rcases hmin with ⟨hmem, hle⟩
  rw [List.mem_filter] at hmem
  refine ⟨hmem.1, by simpa using hmem.2, ?_⟩
  intro u hu hfree
  apply hle
  rw [List.mem_filter]
  exact ⟨hu, by simp [hfree]⟩

theorem select_some_of_incomplete (cw : Crossword) (dom : Domains) (a : Assignment)
    (h : assignmentComplete cw a = false) :
    ∃ var, selectUnassignedVariable cw dom a = some var := by
  rcases incomplete_exists cw a h with ⟨v, hv, hfree⟩
  unfold selectUnassignedVariable
  apply sortByKey_head_some (selectKey cw dom) _ v
  rw [List.mem_filter]
  exact ⟨hv, by simp [hfree]⟩

/-! Lemmas about revise. -/

theorem revise_sublist (cw : Crossword) (dom : Domains) (x y v : Variable) :
    ((revise cw dom x y).2 v).Sublist (dom v) := by
  unfold revise
  cases cw.overlaps x y with
  | none => exact List.Sublist.refl _
  | some p =>
    cases p with
    | mk i1 i2 =>
      by_cases hv : v = x
      · subst hv
        simp only [beq_self_eq_true, if_true]
        exact List.filter_sublist _
      · have hbe : (v == x) = false := by simpa using hv
        simp only [hbe, Bool.false_eq_true, if_false]
        exact List.Sublist.refl _

theorem neighbors_subset (cw : Crossword) (x z : Variable) (h : z ∈ neighbors cw x) :
    z ∈ cw.vars ∧ z ≠ x ∧ (cw.overlaps z x).isSome := by
  unfold neighbors at h
  rw [List.mem_filter] at h
  rcases h with ⟨hz, hb⟩
  rw [Bool.and_eq_true] at hb
  exact ⟨hz, by simpa using hb.1, hb.2⟩

theorem revise_preserves (cw : Crossword) (dom : Domains) (t : Variable → Word) (x y : Variable)
    (hy : y ∈ cw.vars) (hxy : x ≠ y)
    (hov : ∀ u ∈ cw.vars, ∀ v ∈ cw.vars, u ≠ v → overlapOk cw t u v = true)
    (hdraw : ∀ v ∈ cw.vars, t v ∈ dom v) :
    ∀ v ∈ cw.vars, t v ∈ (revise cw dom x y).2 v := by
  intro v hv
  unfold revise
  cases hover : cw.overlaps x y with
  | none => exact hdraw v hv
  | some p =>
    cases p with
    | mk i1 i2 =>
      simp only
      by_cases hvx : v = x
      · subst hvx
        simp only [beq_self_eq_true, if_true]
        rw [List.mem_filter]
        refine ⟨hdraw v hv, ?_⟩
        apply List.any_eq_true.mpr
        refine ⟨t y, hdraw y hy, ?_⟩
        have hok := hov v hv y hy hxy
        unfold overlapOk at hok
        rw [hover] at hok
        exact hok
      · have hbe : (v == x) = false := by simpa using hvx
        simp only [hbe, Bool.false_eq_true, if_false]
        exact hdraw v hv

/-! Lemmas about the AC-3 loop. -/

theorem arcsOK_dropLast (cw : Crossword) (arcs : List (Variable × Variable))
    (h : arcsOK cw arcs) : arcsOK cw arcs.dropLast :=
  fun p hp => h p ((List.dropLast_sublist arcs).subset hp)

theorem arcsOK_enqueue (cw : Crossword) (arcs : List (Variable × Variable)) (x y : Variable)
    (hx : x ∈ cw.vars) (h : arcsOK cw arcs) :
    arcsOK cw (arcs ++ ((neighbors cw x).filter (fun z => z != y)).map (fun z => (z, x))) := by
  intro p hp
  rcases List.mem_append.mp hp with hp | hp
  · exact h p hp
  · rcases List.mem_map.mp hp with ⟨z, hz, rfl⟩
    have hz2 := List.mem_filter.mp hz
    have h3 := neighbors_subset cw x z hz2.1
    exact ⟨h3.1, hx, h3.2.1⟩

theorem initialArcs_OK (cw : Crossword) : arcsOK cw (initialArcs cw) := by
  intro p hp
  unfold initialArcs at hp
  rcases List.mem_flatMap.mp hp with ⟨v1, hv1, hp2⟩
  rcases List.mem_map.mp hp2 with ⟨v2, hv2, rfl⟩
  have h3 := neighbors_subset cw v1 v2 hv2
  exact ⟨hv1, h3.1, fun he => h3.2.1 he.symm⟩

theorem ac3go_sublist (cw : Crossword) :
    ∀ (fuel : Nat) (arcs : List (Variable × Variable)) (dom : Domains) (v : Variable),
      ((ac3go cw fuel arcs dom).2 v).Sublist (dom v) := by
  intro fuel
  induction fuel with
  | zero =>
    intro arcs dom v
    exact List.Sublist.refl _
  | succ fuel ih =>
    intro arcs dom v
    simp only [ac3go]
    cases harc : arcs.getLast? with
    | none => exact List.Sublist.refl _
    | some p =>
      cases p with
      | mk x y =>
        cases hrev : revise cw dom x y with
        | mk flag dom2 =>
          have hsub : (dom2 v).Sublist (dom v) := by
            have := revise_sublist cw dom x y v
            rw [hrev] at this
            exact this
          cases flag
          · simp only [hrev]
            exact (ih _ _ v).trans hsub
          · simp only [hrev]
            by_cases hlen : (dom2 x).length = 0
            · simp only [hlen, if_true]
              exact hsub
            · simp only [hlen, if_false]
              exact (ih _ _ v).trans hsub

theorem ac3go_false_empty (cw : Crossword) :
    ∀ (fuel : Nat) (arcs : List (Variable × Variable)) (dom : Domains), arcsOK cw arcs →
      (ac3go cw fuel arcs dom).1 = false →
      ∃ x ∈ cw.vars, (ac3go cw fuel arcs dom).2 x = [] := by
  intro fuel
  induction fuel with
  | zero =>
    intro arcs dom _ hfalse
    cases hfalse
  | succ fuel ih =>
    intro arcs dom hOK hfalse
    simp only [ac3go] at hfalse ⊢
    cases harc : arcs.getLast? with
    | none =>
      simp only [harc] at hfalse
      cases hfalse
    | some p =>
      cases p with
      | mk x y =>
        have hxy := hOK (x, y) (List.mem_of_mem_getLast? harc)
        simp only [harc] at hfalse ⊢
        cases hrev : revise cw dom x y with
        | mk flag dom2 =>
          cases flag
          · simp only [hrev] at hfalse ⊢
            exact ih _ _ (arcsOK_dropLast cw arcs hOK) hfalse
          · simp only [hrev] at hfalse ⊢
            by_cases hlen : (dom2 x).length = 0
            · simp only [hlen, if_true] at hfalse ⊢
              exact ⟨x, hxy.1, List.length_eq_zero.mp hlen⟩
            · simp only [hlen, if_false] at hfalse ⊢
              exact ih _ _ (arcsOK_enqueue cw _ x y hxy.1 (arcsOK_dropLast cw arcs hOK)) hfalse

theorem ac3go_preserves (cw : Crossword) (t : Variable → Word)
    (hov : ∀ u ∈ cw.vars, ∀ v ∈ cw.vars, u ≠ v → overlapOk cw t u v = true) :
    ∀ (fuel : Nat) (arcs : List (Variable × Variable)) (dom : Domains), arcsOK cw arcs →
      (∀ v ∈ cw.vars, t v ∈ dom v) →
      (ac3go cw fuel arcs dom).1 = true ∧ ∀ v ∈ cw.vars, t v ∈ (ac3go cw fuel arcs dom).2 v := by
  intro fuel
  induction fuel with
  | zero =>
    intro arcs dom _ hdraw
    exact ⟨rfl, hdraw⟩
  | succ fuel ih =>
    intro arcs dom hOK hdraw
    simp only [ac3go]
    cases harc : arcs.getLast? with
    | none => exact ⟨rfl, hdraw⟩
    | some p =>
      cases p with
      | mk x y =>
        have hxy := hOK (x, y) (List.mem_of_mem_getLast? harc)
        cases hrev : revise cw dom x y with
        | mk flag dom2 =>
          have hdraw2 : ∀ v ∈ cw.vars, t v ∈ dom2 v := by
            intro v hv
            have := revise_preserves cw dom t x y hxy.2.1 hxy.2.2 hov hdraw v hv
            rw [hrev] at this
            exact this
          cases flag
          · simp only [hrev]
            exact ih _ _ (arcsOK_dropLast cw arcs hOK) hdraw2
          · simp only [hrev]
            by_cases hlen : (dom2 x).length = 0
            · exfalso
              have hmem := hdraw2 x hxy.1
              rw [List.length_eq_zero.mp hlen] at hmem
              cases hmem
            · simp only [hlen, if_false]
              exact ih _ _ (arcsOK_enqueue cw _ x y hxy.1 (arcsOK_dropLast cw arcs hOK)) hdraw2

/-! Lemmas about the value loop of backtrack. -/

theorem foldl_btStep_pass (cw : Crossword) (var : Variable)
    (bt : Assignment → Option Assignment × Assignment) :
    ∀ (vs : List Word) (r s : Assignment),
      vs.foldl (btStep cw var bt) (some r, s) = (some r, s) := by
  intro vs
  induction vs with
  | nil => intro r s; rfl
  | cons v vs ih =>
    intro r s
    rw [List.foldl_cons]
    have hstep : btStep cw var bt (some r, s) v = (some r, s) := rfl
    rw [hstep]
    exact ih r s

theorem foldl_btStep_restore (cw : Crossword) (var : Variable)
    (bt : Assignment → Option Assignment × Assignment)
    (hbt : ∀ s, (bt s).1 = none → (bt s).2 = s) :
    ∀ (vs : List Word) (s : Assignment), containsKey s var = false →
      (vs.foldl (btStep cw var bt) (none, s)).1 = none →
      (vs.foldl (btStep cw var bt) (none, s)).2 = s := by
  intro vs
  induction vs with
  | nil => intro s _ _; rfl
  | cons v vs ih =>
    intro s hfree hnone
    rw [List.foldl_cons] at hnone ⊢
    cases hcons : consistent cw (insertA s var v) with
    | true =>
      cases hbtv : bt (insertA s var v) with
      | mk r1 s2 =>
        cases r1 with
        | some r =>
          have hstep : btStep cw var bt (none, s) v = (some r, s2) := by
            simp [btStep, hcons, hbtv]
          rw [hstep, foldl_btStep_pass] at hnone
          cases hnone
        | none =>
          have hs2 : s2 = insertA s var v := by
            have h0 := hbt (insertA s var v) (by rw [hbtv])
            rw [hbtv] at h0
            exact h0
          have hstep : btStep cw var bt (none, s) v = (none, s) := by
            simp [btStep, hcons, hbtv, hs2, eraseA_insertA s var v hfree]
          rw [hstep] at hnone ⊢
          exact ih s hfree hnone
    | false =>
      have hstep : btStep cw var bt (none, s) v = (none, s) := by
        simp [btStep, hcons, eraseA_insertA s var v hfree]
      rw [hstep] at hnone ⊢
      exact ih s hfree hnone

theorem foldl_btStep_fail (cw : Crossword) (var : Variable)
    (bt : Assignment → Option Assignment × Assignment)
    (hbt : ∀ s, (bt s).1 = none → (bt s).2 = s) :
    ∀ (vs : List Word) (s : Assignment), containsKey s var = false →
      (vs.foldl (btStep cw var bt) (none, s)).1 = none →
      ∀ v ∈ vs, consistent cw (insertA s var v) = true → (bt (insertA s var v)).1 = none := by
  intro vs
  induction vs with
  | nil =>
    intro s _ _ v hv
    cases hv
  | cons v vs ih =>
    intro s hfree hnone u hu hconsu
    rw [List.foldl_cons] at hnone
    cases hcons : consistent cw (insertA s var v) with
    | true =>
      cases hbtv : bt (insertA s var v) with
      | mk r1 s2 =>
        cases r1 with
        | some r =>
          have hstep : btStep cw var bt (none, s) v = (some r, s2) := by
            simp [btStep, hcons, hbtv]
          rw [hstep, foldl_btStep_pass] at hnone
          cases hnone
        | none =>
          have hs2 : s2 = insertA s var v := by
            have h0 := hbt (insertA s var v) (by rw [hbtv])
            rw [hbtv] at h0
            exact h0
          have hstep : btStep cw var bt (none, s) v = (none, s) := by
            simp [btStep, hcons, hbtv, hs2, eraseA_insertA s var v hfree]
          rw [hstep] at hnone
          rcases List.mem_cons.mp hu with rfl | hu2
          · rw [hbtv]
          · exact ih s hfree hnone u hu2 hconsu
    | false =>
      have hstep : btStep cw var bt (none, s) v = (none, s) := by
        simp [btStep, hcons, eraseA_insertA s var v hfree]
      rw [hstep] at hnone
      rcases List.mem_cons.mp hu with rfl | hu2
      · rw [hconsu] at hcons
        cases hcons
      · exact ih s hfree hnone u hu2 hconsu

theorem foldl_btStep_some_src (cw : Crossword) (var : Variable)
    (bt : Assignment → Option Assignment × Assignment) :
    ∀ (vs : List Word) (s r : Assignment),
      (vs.foldl (btStep cw var bt) (none, s)).1 = some r →
      ∃ s1, consistent cw s1 = true ∧ (bt s1).1 = some r := by
  intro vs
  induction vs with
  | nil =>
    intro s r h
    cases h
  | cons v vs ih =>
    intro s r h
    rw [List.foldl_cons] at h
    cases hcons : consistent cw (insertA s var v) with
    | true =>
      cases hbtv : bt (insertA s var v) with
      | mk r1 s2 =>
        cases r1 with
        | some r0 =>
          have hstep : btStep cw var bt (none, s) v = (some r0, s2) := by
            simp [btStep, hcons, hbtv]
          rw [hstep, foldl_btStep_pass] at h
          have : r0 = r := by simpa using h
          subst this
          exact ⟨insertA s var v, hcons, by rw [hbtv]⟩
        | none =>
          have hstep : btStep cw var bt (none, s) v = (none, eraseA s2 var) := by
            simp [btStep, hcons, hbtv]
          rw [hstep] at h
          exact ih _ r h
    | false =>
      have hstep : btStep cw var bt (none, s) v = (none, eraseA (insertA s var v) var) := by
        simp [btStep, hcons]
      rw [hstep] at h
      exact ih _ r h

theorem foldl_btStep_all_none (cw : Crossword) (var : Variable)
    (bt : Assignment → Option Assignment × Assignment) (x : Variable) (hxvar : x ≠ var)
    (hbt1 : ∀ s, (bt s).1 = none → (bt s).2 = s)
    (hbt2 : ∀ s, containsKey s x = false → (bt s).1 = none) :
    ∀ (vs : List Word) (s : Assignment), containsKey s var = false → containsKey s x = false →
      (vs.foldl (btStep cw var bt) (none, s)).1 = none := by
  intro vs
  induction vs with
  | nil => intro s _ _; rfl
  | cons v vs ih =>
    intro s hfreevar hfreex
    rw [List.foldl_cons]
    cases hcons : consistent cw (insertA s var v) with
    | true =>
      have hfx1 : containsKey (insertA s var v) x = false := by
        rw [containsKey_insertA_other s var x v hfreevar (fun h => hxvar h.symm)]
        exact hfreex
      have hbnone := hbt2 (insertA s var v) hfx1
      cases hbtv : bt (insertA s var v) with
      | mk r1 s2 =>
        rw [hbtv] at hbnone
        simp only at hbnone
        subst hbnone
        have hs2 : s2 = insertA s var v := by
          have h0 := hbt1 (insertA s var v) (by rw [hbtv])
          rw [hbtv] at h0
          exact h0
        have hstep : btStep cw var bt (none, s) v = (none, s) := by
          simp [btStep, hcons, hbtv, hs2, eraseA_insertA s var v hfreevar]
        rw [hstep]
        exact ih s hfreevar hfreex
    | false =>
      have hstep : btStep cw var bt (none, s) v = (none, s) := by
        simp [btStep, hcons, eraseA_insertA s var v hfreevar]
      rw [hstep]
      exact ih s hfreevar hfreex

/-! Lemmas about backtrack. -/

theorem backtrack_restore (cw : Crossword) (dom : Domains) :
    ∀ (fuel : Nat) (a : Assignment), (backtrack cw dom fuel a).1 = none →
      (backtrack cw dom fuel a).2 = a := by
  intro fuel
  induction fuel with
  | zero => intro a _; rfl
  | succ fuel ih =>
    intro a hnone
    simp only [backtrack] at hnone ⊢
    cases hcomp : assignmentComplete cw a with
    | true =>
      simp only [hcomp, if_true] at hnone
      cases hnone
    | false =>
      simp only [hcomp, Bool.false_eq_true, if_false] at hnone ⊢
      cases hsel : selectUnassignedVariable cw dom a with
      | none => simp only [hsel]
      | some var =>
        simp only [hsel] at hnone ⊢
        have hfree := (select_spec cw dom a var hsel).2.1
        exact foldl_btStep_restore cw var _ (fun s h => ih s h) _ a hfree hnone

theorem backtrack_sound (cw : Crossword) (dom : Domains) :
    ∀ (fuel : Nat) (a r : Assignment), consistent cw a = true →
      (backtrack cw dom fuel a).1 = some r →
      assignmentComplete cw r = true ∧ consistent cw r = true := by
  intro fuel
  induction fuel with
  | zero =>
    intro a r _ h
    cases h
  | succ fuel ih =>
    intro a r hcons hsome
    simp only [backtrack] at hsome
    cases hcomp : assignmentComplete cw a with
    | true =>
      simp only [hcomp, if_true, Option.some.injEq] at hsome
      subst hsome
      exact ⟨hcomp, hcons⟩
    | false =>
      simp only [hcomp, Bool.false_eq_true, if_false] at hsome
      cases hsel : selectUnassignedVariable cw dom a with
      | none =>
        simp only [hsel] at hsome
        cases hsome
      | some var =>
        simp only [hsel] at hsome
        rcases foldl_btStep_some_src cw var _ _ a r hsome with ⟨s1, hc1, hb1⟩
        exact ih s1 r hc1 hb1

theorem backtrack_empty_none (cw : Crossword) (dom : Domains) (x : Variable)
    (hx : x ∈ cw.vars) (hdomx : dom x = []) :
    ∀ (fuel : Nat) (a : Assignment), containsKey a x = false →
      (backtrack cw dom fuel a).1 = none := by
  intro fuel
  induction fuel with
  | zero => intro a _; rfl
  | succ fuel ih =>
    intro a hfreex
    simp only [backtrack]
    cases hcomp : assignmentComplete cw a with
    | true =>
      exfalso
      have := complete_contains cw a hcomp x hx
      rw [hfreex] at this
      cases this
    | false =>
      simp only [hcomp, Bool.false_eq_true, if_false]
      cases hsel : selectUnassignedVariable cw dom a with
      | none => simp only [hsel]
      | some var =>
        simp only [hsel]
        have hspec := select_spec cw dom a var hsel
        by_cases hvx : var = x
        · subst hvx
          have hvals : orderDomainValues cw dom var a = [] := by
            unfold orderDomainValues
            rw [hdomx]
            rfl
          rw [hvals]
          rfl
        · exact foldl_btStep_all_none cw var _ x (fun h => hvx h.symm)
            (fun s h => backtrack_restore cw dom fuel s h)
            (fun s h => ih s h) _ a hspec.2.1 hfreex

theorem consistent_of_sub (cw : Crossword) (t : Variable → Word)
    (hlen : ∀ v ∈ cw.vars, (t v).length = v.length)
    (hdis : ∀ u ∈ cw.vars, ∀ v ∈ cw.vars, u ≠ v → t u ≠ t v)
    (hov : ∀ u ∈ cw.vars, ∀ v ∈ cw.vars, u ≠ v → overlapOk cw t u v = true)
    (a : Assignment) (hsub : ∀ p ∈ a, p.1 ∈ cw.vars ∧ t p.1 = p.2) :
    consistent cw a = true := by
  unfold consistent
  rw [List.all_eq_true]
  intro p1 hp1
  obtain ⟨h1v, h1t⟩ := hsub p1 hp1
  rw [Bool.and_eq_true]
  constructor
  · rw [beq_iff_eq, ← h1t]
    exact hlen p1.1 h1v
  · rw [List.all_eq_true]
    intro p2 hp2
    obtain ⟨h2v, h2t⟩ := hsub p2 hp2
    by_cases h12 : p1.1 = p2.1
    · simp [h12]
    · have hbe : (p1.1 == p2.1) = false := by simpa using h12
      simp only [hbe, Bool.false_eq_true, if_false]
      rw [Bool.and_eq_true]
      constructor
      · rw [bne_iff_ne, ← h1t, ← h2t]
        exact hdis p1.1 h1v p2.1 h2v h12
      · cases hover : cw.overlaps p1.1 p2.1 with
        | none => rfl
        | some q =>
          cases q with
          | mk i1 i2 =>
            have hok := hov p1.1 h1v p2.1 h2v h12
            unfold overlapOk at hok
            rw [hover] at hok
            rw [← h1t, ← h2t]
            exact hok

theorem backtrack_isSome (cw : Crossword) (dom : Domains) (t : Variable → Word)
    (hdraw : ∀ v ∈ cw.vars, t v ∈ dom v)
    (hlen : ∀ v ∈ cw.vars, (t v).length = v.length)
    (hdis : ∀ u ∈ cw.vars, ∀ v ∈ cw.vars, u ≠ v → t u ≠ t v)
    (hov : ∀ u ∈ cw.vars, ∀ v ∈ cw.vars, u ≠ v → overlapOk cw t u v = true) :
    ∀ (fuel : Nat) (a : Assignment), (∀ p ∈ a, p.1 ∈ cw.vars ∧ t p.1 = p.2) →
      unassignedCount cw a < fuel → ((backtrack cw dom fuel a).1).isSome = true := by
  intro fuel
  induction fuel with
  | zero =>
    intro a _ hcount
    exact absurd hcount (Nat.not_lt_zero _)
  | succ fuel ih =>
    intro a hsub hcount
    simp only [backtrack]
    cases hcomp : assignmentComplete cw a with
    | true => simp [hcomp]
    | false =>
      obtain ⟨var, hsel⟩ := select_some_of_incomplete cw dom a hcomp
      simp only [hcomp, Bool.false_eq_true, if_false, hsel]
      obtain ⟨hvmem, hvfree, _⟩ := select_spec cw dom a var hsel
      cases hno : (List.foldl (btStep cw var fun s => backtrack cw dom fuel s) (none, a)
          (orderDomainValues cw dom var a)).1 with
      | some r => rfl
      | none =>
      exfalso
      have hsub1 : ∀ p ∈ insertA a var (t var), p.1 ∈ cw.vars ∧ t p.1 = p.2 := by
        intro p hp
        rcases (mem_insertA a var (t var) p hvfree).mp hp with hp | rfl
        · exact hsub p hp
        · exact ⟨hvmem, rfl⟩
      have hcons1 : consistent cw (insertA a var (t var)) = true :=
        consistent_of_sub cw t hlen hdis hov _ hsub1
      have hmemv : t var ∈ orderDomainValues cw dom var a := by
        simp only [orderDomainValues]
        rw [mem_sortByKey]
        exact hdraw var hvmem
      have hfail := foldl_btStep_fail cw var _ (fun s h => backtrack_restore cw dom fuel s h)
        _ a hvfree hno (t var) hmemv hcons1
      have hsome := ih (insertA a var (t var)) hsub1
        (by have := unassignedCount_insertA_lt cw a var (t var) hvmem hvfree; omega)
      rw [hfail] at hsome
      cases hsome

/-! Lemmas about the high degree instance cwH. -/

theorem spoke_ne_hub (j : Nat) : mkSpoke j ≠ hubV := by
  intro h
  have := congrArg Variable.i h
  simp [mkSpoke, hubV] at this

theorem overlaps_spoke_hub (j : Nat) : cwH.overlaps (mkSpoke j) hubV = some (0, 0) := by
  show (if (mkSpoke j).length == hubV.length then none else some (0, 0)) = some (0, 0)
  simp [mkSpoke, hubV]

theorem overlaps_hub_spoke (j : Nat) : cwH.overlaps hubV (mkSpoke j) = some (0, 0) := by
  show (if hubV.length == (mkSpoke j).length then none else some (0, 0)) = some (0, 0)
  simp [mkSpoke, hubV]

theorem overlaps_spoke_spoke (j k : Nat) : cwH.overlaps (mkSpoke j) (mkSpoke k) = none := by
  show (if (mkSpoke j).length == (mkSpoke k).length then none else some (0, 0)) = none
  simp [mkSpoke]

theorem neighbors_hub : neighbors cwH hubV = spokeList := by
  show (hubV :: spokeList).filter _ = spokeList
  rw [List.filter_cons]
  have hhub : ((hubV != hubV) && (cwH.overlaps hubV hubV).isSome) = false := by simp
  rw [hhub]
  simp only [Bool.false_eq_true, if_false]
  rw [List.filter_eq_self]
  intro u hu
  rcases List.mem_map.mp hu with ⟨j, _, rfl⟩
  rw [Bool.and_eq_true, bne_iff_ne]
  exact ⟨spoke_ne_hub j, by rw [overlaps_spoke_hub j]; rfl⟩

theorem neighbors_spoke (j : Nat) : neighbors cwH (mkSpoke j) = [hubV] := by
  show (hubV :: spokeList).filter _ = [hubV]
  rw [List.filter_cons]
  have hhub : ((hubV != mkSpoke j) && (cwH.overlaps hubV (mkSpoke j)).isSome) = true := by
    rw [Bool.and_eq_true, bne_iff_ne]
    exact ⟨fun h => spoke_ne_hub j h.symm, by rw [overlaps_hub_spoke j]; rfl⟩
  rw [hhub]
  simp only [if_true, List.cons.injEq, true_and]
  rw [List.filter_eq_nil_iff]
  intro u hu
  rcases List.mem_map.mp hu with ⟨k, _, rfl⟩
  rw [overlaps_spoke_spoke k j]
  simp

theorem length_spokeList : spokeList.length = 1002 := by
  simp [spokeList]

theorem domH_hub : domH hubV = [['A'], ['B']] := rfl

theorem domH_spoke (j : Nat) : domH (mkSpoke j) = [['C']] := rfl

theorem selectKey_hub : selectKey cwH domH hubV = 998 := by
  unfold selectKey
  rw [neighbors_hub, length_spokeList, domH_hub]
  rfl

theorem selectKey_spoke (j : Nat) : selectKey cwH domH (mkSpoke j) = 999 := by
  unfold selectKey
  rw [neighbors_spoke, domH_spoke]
  rfl

theorem cwH_incomplete : assignmentComplete cwH [] = false := by
  show (hubV :: spokeList).all _ = false
  rw [List.all_cons]
  rfl

/-- Claim C5, amended: provided every variable has fewer than 1000 neighbors,
select_unassigned_variable returns an unassigned variable whose current domain
size is minimal among all unassigned variables, and among those of minimal
domain size one with the greatest number of neighbors (remaining ties
arbitrary).  The bound is forced by the source key
len(domain) - 0.001 * len(neighbors): a degree of 1000 or more outweighs a
whole unit of domain size, as the counterexample shows. -/
theorem select_mrv_degree (cw : Crossword) (dom : Domains) (a : Assignment)
    (hdeg : ∀ v ∈ cw.vars, (neighbors cw v).length < 1000)
    (hinc : assignmentComplete cw a = false) :
    ∃ var, selectUnassignedVariable cw dom a = some var ∧ var ∈ cw.vars ∧
      containsKey a var = false ∧
      ∀ u ∈ cw.vars, containsKey a u = false →
        ((dom var).length < (dom u).length ∨
         ((dom var).length = (dom u).length ∧
          (neighbors cw u).length ≤ (neighbors cw var).length)) := by
  obtain ⟨var, hsel⟩ := select_some_of_incomplete cw dom a hinc
  obtain ⟨hmem, hfree, hmin⟩ := select_spec cw dom a var hsel
  refine ⟨var, hsel, hmem, hfree, ?_⟩
  intro u hu hufree
  have hkey := hmin u hu hufree
  have hdv := hdeg var hmem
  have hdu := hdeg u hu
  unfold selectKey at hkey
  omega

/-! The claims. -/

/-- Claim C5, counterexample: on the hub and spokes instance the hub has 1002
neighbors, so its blended key 2 - 1002 * 0.001 = 0.998 undercuts the key
1 - 0.001 = 0.999 of every spoke, and select_unassigned_variable returns the
hub, whose domain has two words, although the unassigned spoke 0 has a domain
of one word: the returned variable is not of minimal domain size. -/
theorem select_high_degree_violation :
    selectUnassignedVariable cwH domH [] = some hubV ∧
    (domH hubV).length = 2 ∧
    mkSpoke 0 ∈ cwH.vars ∧ containsKey [] (mkSpoke 0) = false ∧
    (domH (mkSpoke 0)).length = 1 := by
  obtain ⟨x, hx⟩ := select_some_of_incomplete cwH domH [] cwH_incomplete
  obtain ⟨hmem, _, hmin⟩ := select_spec cwH domH [] x hx
  have hmem2 : x ∈ hubV :: spokeList := hmem
  have hxhub : x = hubV := by
    rcases List.mem_cons.mp hmem2 with rfl | hxs
    · rfl
    · exfalso
      rcases List.mem_map.mp hxs with ⟨j, _, rfl⟩
      have hle := hmin hubV (List.mem_cons_self _ _) rfl
      rw [selectKey_spoke j, selectKey_hub] at hle
      omega
  subst hxhub
  refine ⟨hx, rfl, ?_, rfl, rfl⟩
  apply List.mem_cons_of_mem
  apply List.mem_map_of_mem
  rw [List.mem_range]
  omega

/-- Claim C5, witness for the amended claim at the Scenario A instance, whose
degrees are below 1000. -/
theorem select_mrv_degree_witness :
    ((∀ v ∈ cwA.vars, (neighbors cwA v).length < 1000) ∧
      assignmentComplete cwA [] = false) ∧
    (∃ var, selectUnassignedVariable cwA (initialDomains cwA) [] = some var ∧
      var ∈ cwA.vars ∧ containsKey [] var = false ∧
      ∀ u ∈ cwA.vars, containsKey [] u = false →
        (((initialDomains cwA) var).length < ((initialDomains cwA) u).length ∨
         (((initialDomains cwA) var).length = ((initialDomains cwA) u).length ∧
          (neighbors cwA u).length ≤ (neighbors cwA var).length))) :=
  ⟨⟨by decide, by decide⟩,
   select_mrv_degree cwA (initialDomains cwA) [] (by decide) (by decide)⟩

/-- Claim C1, counterexample to the claim as stated: on the cwB instance the
arc consistency stage of solve reports infeasibility, yet solve still reaches
the backtrack call, because the source (line 93) discards the Boolean returned
by ac3 and runs the three stages unconditionally. -/
theorem solve_calls_backtrack_after_ac3_failure :
    (ac3 cwB none (enforceNodeConsistency (initialDomains cwB))).1 = false ∧
    (solveTrace cwB).2 = true :=
  ⟨by decide, rfl⟩

/-- Claim C1, amended: when ac3 reports infeasibility, solve still invokes
backtrack on the pruned domains, but backtrack then necessarily returns the
failure marker, so solve returns the failure signal. -/
theorem solve_none_of_ac3_failure (cw : Crossword)
    (h : (ac3 cw none (enforceNodeConsistency (initialDomains cw))).1 = false) :
    solve cw = none := by
  simp only [ac3, Option.getD_none] at h
  obtain ⟨x, hx, hempty⟩ := ac3go_false_empty cw _ _ _ (initialArcs_OK cw) h
  simp only [solve, ac3, Option.getD_none]
  exact backtrack_empty_none cw _ x hx hempty _ [] rfl

/-- Claim C1, witness: the amended theorem applied to the cwB instance. -/
theorem solve_none_of_ac3_failure_witness :
    (ac3 cwB none (enforceNodeConsistency (initialDomains cwB))).1 = false ∧
    solve cwB = none :=
  ⟨by decide, solve_none_of_ac3_failure cwB (by decide)⟩

/-- Claim C2: when solve returns a non null assignment, every variable is
bound to a word of its own length, distinct variables are bound to distinct
words, and every overlapping pair of distinct variables agrees at the overlap
offsets. -/
theorem solve_result_invariants (cw : Crossword) (r : Assignment) (h : solve cw = some r) :
    (∀ v ∈ cw.vars, ∃ w, lookupA r v = some w ∧ w.length = v.length) ∧
    (∀ u ∈ cw.vars, ∀ v ∈ cw.vars, u ≠ v → ∀ wu wv, lookupA r u = some wu →
      lookupA r v = some wv → wu ≠ wv) ∧
    (∀ u ∈ cw.vars, ∀ v ∈ cw.vars, u ≠ v → ∀ i1 i2, cw.overlaps u v = some (i1, i2) →
      ∀ wu wv, lookupA r u = some wu → lookupA r v = some wv →
        charAt wu i1 = charAt wv i2) := by
  simp only [solve] at h
  obtain ⟨hcompl, hcons⟩ := backtrack_sound cw _ _ [] r rfl h
  refine ⟨?_, ?_, ?_⟩
  · intro v hv
    obtain ⟨w, hw⟩ := (containsKey_iff_lookupA r v).mp (complete_contains cw r hcompl v hv)
    refine ⟨w, hw, ?_⟩
    have hmem := mem_of_lookupA r v w hw
    have h1 := List.all_eq_true.mp hcons (v, w) hmem
    rw [Bool.and_eq_true] at h1
    exact beq_iff_eq.mp h1.1
  · intro u hu v hv hne wu wv hwu hwv
    have hmemu := mem_of_lookupA r u wu hwu
    have hmemv := mem_of_lookupA r v wv hwv
    have h1 := List.all_eq_true.mp hcons (u, wu) hmemu
    rw [Bool.and_eq_true] at h1
    have h2 := List.all_eq_true.mp h1.2 (v, wv) hmemv
    have hbe : (u == v) = false := by simpa using hne
    simp only [hbe, Bool.false_eq_true, if_false, Bool.and_eq_true] at h2
    exact bne_iff_ne.mp h2.1
  · intro u hu v hv hne i1 i2 hover wu wv hwu hwv
    have hmemu := mem_of_lookupA r u wu hwu
    have hmemv := mem_of_lookupA r v wv hwv
    have h1 := List.all_eq_true.mp hcons (u, wu) hmemu
    rw [Bool.and_eq_true] at h1
    have h2 := List.all_eq_true.mp h1.2 (v, wv) hmemv
    have hbe : (u == v) = false := by simpa using hne
    simp only [hbe, Bool.false_eq_true, if_false, Bool.and_eq_true, hover] at h2
    exact beq_iff_eq.mp h2.2

/-- Claim C2, witness: the theorem applied to the Scenario A instance, on
which solve returns CAT across and COW down. -/
theorem solve_result_invariants_witness :
    solve cwA = some rA ∧
    ((∀ v ∈ cwA.vars, ∃ w, lookupA rA v = some w ∧ w.length = v.length) ∧
     (∀ u ∈ cwA.vars, ∀ v ∈ cwA.vars, u ≠ v → ∀ wu wv, lookupA rA u = some wu →
       lookupA rA v = some wv → wu ≠ wv) ∧
     (∀ u ∈ cwA.vars, ∀ v ∈ cwA.vars, u ≠ v → ∀ i1 i2, cwA.overlaps u v = some (i1, i2) →
       ∀ wu wv, lookupA rA u = some wu → lookupA rA v = some wv →
         charAt wu i1 = charAt wv i2)) :=
  ⟨by decide, solve_result_invariants cwA rA (by decide)⟩

/-- Claim C3: if some complete assignment drawn from the domains satisfies the
length, distinctness and overlap constraints, then backtrack on the empty
assignment (with the recursion depth budget solve supplies) returns some
complete consistent assignment rather than the failure marker. -/
theorem backtrack_completeness (cw : Crossword) (dom : Domains) (t : Variable → Word)
    (hdraw : ∀ v ∈ cw.vars, t v ∈ dom v)
    (hlen : ∀ v ∈ cw.vars, (t v).length = v.length)
    (hdis : ∀ u ∈ cw.vars, ∀ v ∈ cw.vars, u ≠ v → t u ≠ t v)
    (hov : ∀ u ∈ cw.vars, ∀ v ∈ cw.vars, u ≠ v → overlapOk cw t u v = true) :
    ∃ r, (backtrack cw dom (cw.vars.length + 1) []).1 = some r ∧
      assignmentComplete cw r = true ∧ consistent cw r = true := by
  have hcount : unassignedCount cw [] < cw.vars.length + 1 := by
    have := List.length_filter_le (fun v => !containsKey [] v) cw.vars
    unfold unassignedCount
    omega
  have hsome := backtrack_isSome cw dom t hdraw hlen hdis hov _ [] (by intro p hp; cases hp)
    hcount
  obtain ⟨r, hr⟩ := Option.isSome_iff_exists.mp hsome
  obtain ⟨h1, h2⟩ := backtrack_sound cw dom _ [] r rfl hr
  exact ⟨r, hr, h1, h2⟩

/-- Claim C3, witness: on the Scenario A instance with its full domains, the
assignment CAT across, COW down satisfies all hypotheses, and backtrack finds
a solution. -/
theorem backtrack_completeness_witness :
    ((∀ v ∈ cwA.vars, tA v ∈ (initialDomains cwA) v) ∧
     (∀ v ∈ cwA.vars, (tA v).length = v.length) ∧
     (∀ u ∈ cwA.vars, ∀ v ∈ cwA.vars, u ≠ v → tA u ≠ tA v) ∧
     (∀ u ∈ cwA.vars, ∀ v ∈ cwA.vars, u ≠ v → overlapOk cwA tA u v = true)) ∧
    (∃ r, (backtrack cwA (initialDomains cwA) (cwA.vars.length + 1) []).1 = some r ∧
      assignmentComplete cwA r = true ∧ consistent cwA r = true) :=
  ⟨⟨by decide, by decide, by decide, by decide⟩,
   backtrack_completeness cwA (initialDomains cwA) tA (by decide) (by decide) (by decide)
     (by decide)⟩

/-- Claim C4: if ac3 with the default worklist reports infeasibility, then no
complete assignment drawn from the pre propagation domains satisfies the
length, distinctness and overlap constraints. -/
theorem ac3_failure_soundness (cw : Crossword) (dom : Domains)
    (h : (ac3 cw none dom).1 = false) :
    ¬ ∃ t : Variable → Word,
      (∀ v ∈ cw.vars, t v ∈ dom v) ∧ (∀ v ∈ cw.vars, (t v).length = v.length) ∧
      (∀ u ∈ cw.vars, ∀ v ∈ cw.vars, u ≠ v → t u ≠ t v) ∧
      (∀ u ∈ cw.vars, ∀ v ∈ cw.vars, u ≠ v → overlapOk cw t u v = true) := by
  rintro ⟨t, hdraw, _, _, hov⟩
  simp only [ac3, Option.getD_none] at h
  have hres := ac3go_preserves cw t hov
    ((initialArcs cw).length + totalSize cw dom * cw.vars.length + 1) (initialArcs cw) dom
    (initialArcs_OK cw) hdraw
  rw [hres.1] at h
  cases h

/-- Claim C4, witness: ac3 fails on the cwB instance after node consistency,
so that instance admits no satisfying assignment from those domains. -/
theorem ac3_failure_soundness_witness :
    (ac3 cwB none (enforceNodeConsistency (initialDomains cwB))).1 = false ∧
    ¬ ∃ t : Variable → Word,
      (∀ v ∈ cwB.vars, t v ∈ (enforceNodeConsistency (initialDomains cwB)) v) ∧
      (∀ v ∈ cwB.vars, (t v).length = v.length) ∧
      (∀ u ∈ cwB.vars, ∀ v ∈ cwB.vars, u ≠ v → t u ≠ t v) ∧
      (∀ u ∈ cwB.vars, ∀ v ∈ cwB.vars, u ≠ v → overlapOk cwB t u v = true) :=
  ⟨by decide, ac3_failure_soundness cwB (enforceNodeConsistency (initialDomains cwB)) (by decide)⟩

/-- Claim C6: when an overlap (i1, i2) exists, revise keeps in the domain of x
exactly the words with a partner in the domain of y agreeing at the offsets,
leaves every other domain unchanged, and returns true iff the domain of x
changed; when no overlap exists, it changes nothing and returns false. -/
theorem revise_contract (cw : Crossword) (dom : Domains) (x y : Variable) :
    (∀ i1 i2, cw.overlaps x y = some (i1, i2) →
      (revise cw dom x y).2 x =
        (dom x).filter (fun w => (dom y).any (fun w2 => charAt w i1 == charAt w2 i2)) ∧
      (∀ z, z ≠ x → (revise cw dom x y).2 z = dom z) ∧
      ((revise cw dom x y).1 = true ↔ (revise cw dom x y).2 x ≠ dom x)) ∧
    (cw.overlaps x y = none → (revise cw dom x y).2 = dom ∧ (revise cw dom x y).1 = false) := by
  constructor
  · intro i1 i2 hover
    unfold revise
    simp only [hover]
    refine ⟨by simp, ?_, ?_⟩
    · intro z hz
      have hbe : (z == x) = false := by simpa using hz
      simp [hbe]
    · simp only [beq_self_eq_true, if_true, bne_iff_ne, ne_eq]
      constructor
      · intro hlen heq
        exact hlen (congrArg List.length heq)
      · intro hne hlen
        exact hne ((List.filter_sublist (dom x)).eq_of_length hlen)
  · intro hover
    unfold revise
    simp [hover]

/-- Claim C6, witness: on the cwB instance, revising the length one slot
against the length two slot filters its domain by the overlap, and revising a
pair without an overlap changes nothing and returns false. -/
theorem revise_contract_witness :
    ((revise cwB (initialDomains cwB) bV1 bV2).2 bV1 =
      ((initialDomains cwB) bV1).filter
        (fun w => ((initialDomains cwB) bV2).any (fun w2 => charAt w 0 == charAt w2 1))) ∧
    ((revise cwB (initialDomains cwB) bV1 bV1).2 = initialDomains cwB ∧
      (revise cwB (initialDomains cwB) bV1 bV1).1 = false) :=
  ⟨((revise_contract cwB (initialDomains cwB) bV1 bV2).1 0 1 (by decide)).1,
   (revise_contract cwB (initialDomains cwB) bV1 bV1).2 (by decide)⟩

/-- Claim C7: whenever a backtrack call returns the failure marker, the
assignment it hands back is exactly the assignment it was given: every
tentative binding made inside the call, including in nested frames, has been
removed on the failing exit path. -/
theorem backtrack_failure_restores (cw : Crossword) (dom : Domains) (fuel : Nat)
    (a : Assignment) (h : (backtrack cw dom fuel a).1 = none) :
    (backtrack cw dom fuel a).2 = a :=
  backtrack_restore cw dom fuel a h

/-- Claim C7, witness: on the unsatisfiable cwU instance backtrack fails and
returns the empty assignment it started from. -/
theorem backtrack_failure_restores_witness :
    (backtrack cwU (initialDomains cwU) 3 []).1 = none ∧
    (backtrack cwU (initialDomains cwU) 3 []).2 = [] :=
  ⟨by decide, backtrack_failure_restores cwU (initialDomains cwU) 3 [] (by decide)⟩

/-- Claim C8: domains only shrink: node consistency yields a sublist of each
domain, each revise call yields a sublist of each domain, the whole AC-3 loop
yields a sublist of each domain, and the domain sizes are correspondingly non
increasing across the pipeline. -/
theorem pipeline_domains_shrink (cw : Crossword) (dom : Domains) (x y v : Variable)
    (fuel : Nat) (arcs : List (Variable × Variable)) :
    ((enforceNodeConsistency dom v).Sublist (dom v) ∧
      (enforceNodeConsistency dom v).length ≤ (dom v).length) ∧
    (((revise cw dom x y).2 v).Sublist (dom v) ∧
      ((revise cw dom x y).2 v).length ≤ (dom v).length) ∧
    (((ac3go cw fuel arcs dom).2 v).Sublist (dom v) ∧
      ((ac3go cw fuel arcs dom).2 v).length ≤ (dom v).length) :=
  ⟨⟨List.filter_sublist _, (List.filter_sublist _).length_le⟩,
   ⟨revise_sublist cw dom x y v, (revise_sublist cw dom x y v).length_le⟩,
   ⟨ac3go_sublist cw fuel arcs dom v, (ac3go_sublist cw fuel arcs dom v).length_le⟩⟩

/-- Claim C9: the node consistency filter is idempotent: applying it twice
yields exactly the domains of applying it once. -/
theorem enforceNodeConsistency_idempotent (dom : Domains) :
    enforceNodeConsistency (enforceNodeConsistency dom) = enforceNodeConsistency dom := by
  funext v
  show ((dom v).filter _).filter _ = (dom v).filter _
  rw [List.filter_filter]
  apply List.filter_congr
  intro w _
  exact Bool.and_self _

/-- Claim C10: ac3 returning true does not imply non empty domains: on two
crossing slots with an empty vocabulary, the two initial arcs are processed,
no revision changes a domain, and ac3 returns true although every domain is
empty. -/
theorem ac3_true_empty_domains :
    (ac3 cwT none (initialDomains cwT)).1 = true ∧
    initialDomains cwT tV1 = [] ∧ initialArcs cwT ≠ [] :=
  ⟨by decide, rfl, by decide⟩

end CrosswordGen
